import Mathlib

/-!
Verification of the path-list manipulation core of `pathaid-rs`
(`src/pathops.rs`, `src/main.rs`).

Path entries and raw path strings are modelled as `String` (the program
converts every OS string to UTF-8 `String` and fails otherwise).
Filesystem canonicalization (`Path::canonicalize`) is modelled as an
arbitrary function `res : String → Option String`: `some` is `Ok(canonical)`
and `none` is any `Err`.  The directory probes used by `exists` are the
fields of `FsEnv`.  The platform list separator is the POSIX one, `':'`.
-/

open scoped List

namespace Pathaid

/-- The platform path-list separator (POSIX convention). -/
def sep : Char := ':'

/-- Splitting of a character sequence on the separator, with the semantics of
Rust `slice::split` used by `env::split_paths` on Unix: `n` separators yield
`n + 1` (possibly empty) segments; the empty sequence yields one empty
segment. -/
def splitChars : List Char → List (List Char)
  | [] => [[]]
  | c :: rest =>
    if c = sep then
      [] :: splitChars rest
    else
      match splitChars rest with
      | [] => [[c]]
      | s :: ss => (c :: s) :: ss

/-- Joining with the semantics of Unix `env::join_paths` on the success path:
the segments concatenated with one separator between consecutive segments. -/
def joinChars : List (List Char) → List Char
  | [] => []
  | [s] => s
  | s :: t :: ts => s ++ sep :: joinChars (t :: ts)

/-- `split` from `pathops.rs`: `env::split_paths` collected into a vector. -/
def split (path_var : String) : List String :=
  (splitChars path_var.data).map String.mk

/-- `join` from `pathops.rs`: `env::join_paths`, which fails as soon as some
entry contains the separator character, then conversion to `String`. -/
def join (paths : List String) : Except String String :=
  if paths.any (fun p => decide (sep ∈ p.data)) then
    Except.error "unable to join path components"
  else
    Except.ok (String.mk (joinChars (paths.map String.data)))

/-- The Unix path separator, used by `Path::components()`. -/
def pathSep : Char := '/'

/-- Splitting of a path's characters on `'/'` (same slice-split semantics
as `splitChars`), the raw segments `Path::components()` normalizes. -/
def splitSlash : List Char → List (List Char)
  | [] => [[]]
  | c :: rest =>
    if c = pathSep then
      [] :: splitSlash rest
    else
      match splitSlash rest with
      | [] => [[c]]
      | s :: ss => (c :: s) :: ss

/-- A component of a Unix path, as in `std::path::Component` (no prefixes
on Unix). -/
inductive Component where
  | rootDir
  | curDir
  | parentDir
  | normal (s : String)
deriving DecidableEq

/-- Normalization of raw slash-separated segments as `Path::components()`
performs it: empty segments (repeated or trailing separators) and interior
`.` segments disappear, `..` stays. -/
def segComponents (segs : List (List Char)) : List Component :=
  segs.filterMap fun s =>
    if s = [] then none
    else if s = ['.'] then none
    else if s = ['.', '.'] then some Component.parentDir
    else some (Component.normal (String.mk s))

/-- `Path::components()` for a Unix path: a leading `/` gives `RootDir`
(repeated leading separators collapse); a relative path starting with a `.`
segment keeps that one `CurDir` (`include_cur_dir` in the std source); the
remaining segments are normalized by `segComponents`. -/
def components (p : String) : List Component :=
  let cs := p.data
  let lead : List Component :=
    if cs.head? = some pathSep then [Component.rootDir]
    else if cs.head? = some '.' ∧ (cs.tail = [] ∨ cs.tail.head? = some pathSep) then
      [Component.curDir]
    else []
  lead ++ segComponents (splitSlash cs)

/-- Rust `PathBuf` equality: `PartialEq for Path` compares `components()`,
so `/x` equals `/x/` and `a//b` equals `a/b`. -/
def pathEq (p q : String) : Prop :=
  components p = components q

instance (p q : String) : Decidable (pathEq p q) :=
  inferInstanceAs (Decidable (components p = components q))

/-- `HashSet<PathBuf>::contains`: membership in a set of paths up to
`PathBuf` equality (the `Hash` impl is consistent with `PartialEq`). -/
def pathMem (p : String) (l : List String) : Prop :=
  ∃ q ∈ l, pathEq q p

instance (p : String) (l : List String) : Decidable (pathMem p l) :=
  List.decidableBEx _ l

/-- The canonicalization fallback used throughout `pathops.rs`:
`match path.canonicalize() { Ok(p) => p, _ => path.clone() }`. -/
def resolve (res : String → Option String) (p : String) : String :=
  (res p).getD p

/-- Loop body of `find_duplicates_resolved` from `pathops.rs`: the seen set
holds resolved forms, and the resolved form is what gets reported. -/
def findDuplicatesResolvedGo (res : String → Option String)
    (seen : List String) : List String → List String
  | [] => []
  | p :: rest =>
    if pathMem (resolve res p) seen then
      resolve res p :: findDuplicatesResolvedGo res seen rest
    else
      findDuplicatesResolvedGo res (resolve res p :: seen) rest

/-- `find_duplicates_resolved` from `pathops.rs`. -/
def find_duplicates_resolved (res : String → Option String)
    (paths : List String) : List String :=
  findDuplicatesResolvedGo res [] paths

/-- Loop body of `dedup` from `pathops.rs`: `seen` models the
`HashSet<PathBuf>` of kept literal entries, `resolved` the one of their
resolved forms; an entry is kept iff it is in neither, membership being up
to `PathBuf` (component) equality. -/
def dedupGo (res : String → Option String) (seen resolved : List String) :
    List String → List String
  | [] => []
  | p :: rest =>
    if ¬ pathMem p seen ∧ ¬ pathMem (resolve res p) resolved then
      p :: dedupGo res (p :: seen) (resolve res p :: resolved) rest
    else
      dedupGo res seen resolved rest

/-- `dedup` from `pathops.rs`. -/
def dedup (res : String → Option String) (paths : List String) :
    List String :=
  dedupGo res [] [] paths

/-- The filesystem facts `pathops.rs` consults: `res` is
`Path::canonicalize`, `fsExists` is `Path::exists` and `isDir` is
`Path::is_dir` (the latter two are only ever applied to canonicalized
paths). -/
structure FsEnv where
  res : String → Option String
  fsExists : String → Bool
  isDir : String → Bool

/-- `exists` from `pathops.rs` (renamed, `exists` being reserved in Lean):
canonicalize, then require the canonical path to exist and be a directory;
any canonicalization error yields `false`. -/
def existsDir (env : FsEnv) (path : String) : Bool :=
  match env.res path with
  | some p => env.fsExists p && env.isDir p
  | none => false

/-- The distinguishable failures of `validate_addition` /
`ensure_unique_addition` in `pathops.rs` (three distinct `ensure!` sites
with distinct messages). -/
inductive AddError where
  | notADirectory
  | alreadyPresentLiteral
  | alreadyPresentResolved
deriving DecidableEq

/-- Building a `HashSet<PathBuf>` from a list by repeated `insert`: an
element `PathBuf`-equal to one already present is not inserted, so each
path-equality class is represented by its first occurrence. -/
def hsGo (s : List String) : List String → List String
  | [] => s
  | p :: rest =>
    if pathMem p s then hsGo s rest
    else hsGo (p :: s) rest

/-- `split_hs` from `pathops.rs`: `env::split_paths(..).collect()` into a
`HashSet<PathBuf>`. -/
def split_hs (path_var : String) : List String :=
  hsGo [] (split path_var)

/-- `ensure_unique_addition` from `pathops.rs`: the literal check is
`HashSet::contains` of the addition in `split_hs(path_var)`; the resolved
check compares the addition's fallback-resolved form against
`unique_paths.iter().flat_map(|p| p.canonicalize()).collect()`, i.e. the
set of the *successful* canonicalizations of the set's representatives.
All comparisons are up to `PathBuf` equality. -/
def ensure_unique_addition (res : String → Option String)
    (path_var addition : String) : Except AddError Unit :=
  let unique_paths := split_hs path_var
  if pathMem addition unique_paths then
    Except.error AddError.alreadyPresentLiteral
  else if pathMem (resolve res addition) (unique_paths.filterMap res) then
    Except.error AddError.alreadyPresentResolved
  else
    Except.ok ()

/-- `validate_addition` from `pathops.rs`: the existence check runs first,
then `ensure_unique_addition`. -/
def validate_addition (env : FsEnv) (path_var addition : String) :
    Except AddError Unit :=
  if existsDir env addition then ensure_unique_addition env.res path_var addition
  else Except.error AddError.notADirectory

/-- `append_path` from `pathops.rs`: split, `push` the addition, join. -/
def append_path (path_var addition : String) : Except String String :=
  join (split path_var ++ [addition])

/-- `prepend_path` from `pathops.rs`: split, `insert(0, ..)`, join. -/
def prepend_path (path_var addition : String) : Except String String :=
  join (addition :: split path_var)

/-- A concrete canonicalization for counterexamples: `/c` resolves to `/u`;
nothing else resolves (in particular the existing entry `/u` itself does
not, e.g. for permission reasons). -/
def exRes : String → Option String :=
  fun s => if s = "/c" then some "/u" else none

/-- A concrete filesystem for counterexamples: only `/u` exists and is a
directory; `/c` canonicalizes to it. -/
def exEnv : FsEnv :=
  { res := exRes, fsExists := fun s => s == "/u", isDir := fun s => s == "/u" }

/-- A canonicalization for counterexamples under which nothing resolves
(every probe fails). -/
def resNone : String → Option String := fun _ => none

/-- A canonicalization for counterexamples mirroring `/link` being a
symlink to a regular file `/t`: `canonicalize("/link")` is `Ok("/t")` while
`canonicalize("/link/")` fails (`ENOTDIR`, the trailing slash forcing
directory resolution), although `/link` and `/link/` are equal as
`PathBuf`s. -/
def resLink : String → Option String :=
  fun s => if s = "/link" then some "/t" else none

theorem splitChars_ne_nil (l : List Char) : splitChars l ≠ [] := by
  cases l with
  | nil => simp [splitChars]
  | cons c rest =>
    simp only [splitChars]
    split
    · simp
    · split <;> simp

theorem sep_not_mem_of_mem_splitChars (l : List Char) :
    ∀ m ∈ splitChars l, sep ∉ m := by
  induction l with
  | nil =>
    intro m hm
    simp [splitChars] at hm
    simp [hm]
  | cons c rest ih =>
    intro m hm
    simp only [splitChars] at hm
    by_cases hc : c = sep
    · simp [hc] at hm
      rcases hm with hm | hm
      · simp [hm]
      · exact ih m hm
    · simp [hc] at hm
      rcases hs : splitChars rest with _ | ⟨s, ss⟩
      · exact absurd hs (splitChars_ne_nil rest)
      · rw [hs] at hm
        simp at hm
        rcases hm with hm | hm
        · subst hm
          intro hmem
          rcases List.mem_cons.mp hmem with h | h
          · exact hc h.symm
          · exact ih s (by simp [hs]) h
        · exact ih m (by simp [hs, hm])

theorem splitChars_of_not_mem (l : List Char) (h : sep ∉ l) :
    splitChars l = [l] := by
  induction l with
  | nil => rfl
  | cons c rest ih =>
    have hc : c ≠ sep := fun hc => h (by simp [hc])
    have hr : sep ∉ rest := fun hr => h (by simp [hr])
    simp only [splitChars, if_neg hc, ih hr]

theorem splitChars_append_sep (s t : List Char) (h : sep ∉ s) :
    splitChars (s ++ sep :: t) = s :: splitChars t := by
  induction s with
  | nil => simp [splitChars]
  | cons c s' ih =>
    have hc : c ≠ sep := fun hc => h (by simp [hc])
    have hs : sep ∉ s' := fun hs => h (by simp [hs])
    have h2 : splitChars (s' ++ sep :: t) = s' :: splitChars t := ih hs
    simp [splitChars, hc, h2]

theorem joinChars_splitChars (l : List Char) :
    joinChars (splitChars l) = l := by
  induction l with
  | nil => rfl
  | cons c rest ih =>
    simp only [splitChars]
    by_cases hc : c = sep
    · simp only [if_pos hc]
      rcases hs : splitChars rest with _ | ⟨s, ss⟩
      · exact absurd hs (splitChars_ne_nil rest)
      · rw [hs] at ih
        simp only [joinChars]
        rw [ih, hc]
        rfl
    · simp only [if_neg hc]
      rcases hs : splitChars rest with _ | ⟨s, ss⟩
      · exact absurd hs (splitChars_ne_nil rest)
      · rw [hs] at ih
        rcases ss with _ | ⟨t, ts⟩
        · simpa [joinChars] using congrArg (c :: ·) ih
        · simp only [joinChars] at ih ⊢
          rw [List.cons_append, ih]

theorem splitChars_joinChars (ls : List (List Char)) (hne : ls ≠ [])
    (h : ∀ s ∈ ls, sep ∉ s) : splitChars (joinChars ls) = ls := by
  induction ls with
  | nil => exact absurd rfl hne
  | cons s rest ih =>
    rcases rest with _ | ⟨t, ts⟩
    · simpa [joinChars] using splitChars_of_not_mem s (h s (by simp))
    · have hs : sep ∉ s := h s (by simp)
      simp only [joinChars]
      rw [splitChars_append_sep s _ hs, ih (by simp)]
      intro m hm
      exact h m (by simp [hm])

/-! ### Codec lemmas at the `String` level -/

theorem split_sep_free (raw : String) : ∀ p ∈ split raw, sep ∉ p.data := by
  intro p hp
  simp only [split, List.mem_map] at hp
  obtain ⟨m, hm, hpm⟩ := hp
  subst hpm
  exact sep_not_mem_of_mem_splitChars raw.data m hm

theorem split_join_aux (entries : List String) (hne : entries ≠ [])
    (h : ∀ e ∈ entries, sep ∉ e.data) :
    ∃ s, join entries = Except.ok s ∧ split s = entries := by
  have hany : (entries.any fun p => decide (sep ∈ p.data)) = false := by
    rw [List.any_eq_false]
    intro p hp
    simpa using h p hp
  refine ⟨String.mk (joinChars (entries.map String.data)), ?_, ?_⟩
  · simp [join, hany]
  · simp only [split]
    rw [splitChars_joinChars]
    · rw [List.map_map]
      have hid : (String.mk ∘ String.data) = id := funext fun x => rfl
      rw [hid, List.map_id]
    · simpa using hne
    · intro s hs
      simp only [List.mem_map] at hs
      obtain ⟨e, he, hes⟩ := hs
      subst hes
      exact h e he

/-- **C10.** For every raw path-list string, `join (split raw)` succeeds and
returns `raw` byte-for-byte: `split` is total, no segment it produces
contains the separator, so `join` takes its success branch and reproduces
the raw string, empty segments included. -/
theorem join_split_roundtrip (raw : String) :
    join (split raw) = Except.ok raw := by
  have hany : ((split raw).any fun p => decide (sep ∈ p.data)) = false := by
    rw [List.any_eq_false]
    intro p hp
    simpa using split_sep_free raw p hp
  simp only [join, hany, Bool.false_eq_true, if_false]
  congr 1
  simp only [split, List.map_map]
  have hid : (String.data ∘ String.mk) = id := funext fun x => rfl
  rw [hid, List.map_id, joinChars_splitChars]

/-- **C8 counterexample.** The claim says `split` on the empty raw string
yields the empty sequence; in fact `env::split_paths` (slice splitting)
yields one empty segment. -/
theorem split_empty_ne_nil : split "" ≠ [] := by decide

/-- **C8 amended.** `split` applied to the empty raw string yields the
one-element sequence containing the empty entry. -/
theorem split_empty_eq_singleton : split "" = [""] := by decide

/-- **C2 counterexample.** The round-trip `split (join entries) = entries`
fails at the empty sequence, whose entries vacuously contain no separator:
`join [] = ok ""` but `split ""` is a one-element sequence. -/
theorem split_join_fails_on_empty_list :
    join ([] : List String) = Except.ok "" ∧
      split "" ≠ ([] : List String) :=
  ⟨rfl, by decide⟩

/-- **C2 amended.** For every *nonempty* sequence of entries none of whose
text contains the separator character, `join` succeeds and `split` of the
result is the original sequence, byte-for-byte. -/
theorem split_join_roundtrip_of_ne_nil (entries : List String)
    (hne : entries ≠ []) (h : ∀ e ∈ entries, sep ∉ e.data) :
    ∃ s, join entries = Except.ok s ∧ split s = entries :=
  split_join_aux entries hne h

/-- Witness for `split_join_roundtrip_of_ne_nil` at a concrete input. -/
theorem split_join_roundtrip_witness :
    ∃ s, join ["/a", "/b"] = Except.ok s ∧ split s = ["/a", "/b"] :=
  split_join_roundtrip_of_ne_nil ["/a", "/b"] (by decide) (by decide)

/-- **C9.** `append_path` returns the joined list with the candidate as the
new last element and `prepend_path` with the candidate as the new first
element; existing entries keep their relative order.  Neither function takes
any filesystem environment, so no validation of the candidate happens; the
only failure mode is the candidate containing the separator (a `join`
error), excluded by the hypothesis. -/
theorem append_prepend_spec (path_var addition : String)
    (h : sep ∉ addition.data) :
    (∃ s, append_path path_var addition = Except.ok s ∧
        split s = split path_var ++ [addition]) ∧
    (∃ s, prepend_path path_var addition = Except.ok s ∧
        split s = addition :: split path_var) := by
  constructor
  · exact split_join_aux (split path_var ++ [addition]) (by simp)
      (by
        intro e he
        rcases List.mem_append.mp he with he | he
        · exact split_sep_free path_var e he
        · simp at he
          subst he
          exact h)
  · exact split_join_aux (addition :: split path_var) (by simp)
      (by
        intro e he
        rcases List.mem_cons.mp he with he | he
        · subst he
          exact h
        · exact split_sep_free path_var e he)

/-- Witness for `append_prepend_spec` at a concrete input. -/
theorem append_prepend_witness :
    (∃ s, append_path "/a:/b" "/c" = Except.ok s ∧
        split s = split "/a:/b" ++ ["/c"]) ∧
    (∃ s, prepend_path "/a:/b" "/c" = Except.ok s ∧
        split s = "/c" :: split "/a:/b") :=
  append_prepend_spec "/a:/b" "/c" (by decide)

/-! ### Path equality and path-set membership -/

theorem pathEq_refl (p : String) : pathEq p p := rfl

theorem pathEq_trans {p q r : String} (h1 : pathEq p q) (h2 : pathEq q r) :
    pathEq p r := h1.trans h2

theorem pathMem_nil (p : String) : ¬ pathMem p [] := by
  rintro ⟨q, hq, _⟩
  exact (List.not_mem_nil q) hq

theorem pathMem_cons {p q : String} {l : List String} :
    pathMem p (q :: l) ↔ pathEq q p ∨ pathMem p l := by
  constructor
  · rintro ⟨r, hr, he⟩
    rcases List.mem_cons.mp hr with h | h
    · exact Or.inl (h ▸ he)
    · exact Or.inr ⟨r, h, he⟩
  · rintro (h | ⟨r, hr, he⟩)
    · exact ⟨q, List.mem_cons_self q l, h⟩
    · exact ⟨r, List.mem_cons_of_mem q hr, he⟩

theorem pathMem_of_mem {p : String} {l : List String} (h : p ∈ l) :
    pathMem p l := ⟨p, h, pathEq_refl p⟩

theorem pathMem_mono {p q : String} {l : List String} (h : pathMem p l) :
    pathMem p (q :: l) := pathMem_cons.mpr (Or.inr h)

theorem pathMem_congr {p x : String} {l : List String} (h : pathMem p l)
    (he : pathEq p x) : pathMem x l := by
  obtain ⟨r, hr, hrp⟩ := h
  exact ⟨r, hr, pathEq_trans hrp he⟩

theorem pathMem_hsGo (l : List String) :
    ∀ (s : List String) (x : String),
      pathMem x (hsGo s l) ↔ pathMem x s ∨ pathMem x l := by
  induction l with
  | nil =>
    intro s x
    simp [hsGo, pathMem_nil]
  | cons p rest ih =>
    intro s x
    simp only [hsGo]
    by_cases hp : pathMem p s
    · rw [if_pos hp, ih s x, pathMem_cons]
      constructor
      · rintro (h | h)
        · exact Or.inl h
        · exact Or.inr (Or.inr h)
      · rintro (h | h | h)
        · exact Or.inl h
        · exact Or.inl (pathMem_congr hp h)
        · exact Or.inr h
    · rw [if_neg hp, ih (p :: s) x, pathMem_cons, pathMem_cons]
      tauto

theorem pathMem_split_hs (path_var x : String) :
    pathMem x (split_hs path_var) ↔ pathMem x (split path_var) := by
  rw [split_hs, pathMem_hsGo]
  simp [pathMem_nil]

theorem pathMem_filterMap {x : String} {f : String → Option String}
    {l : List String} :
    pathMem x (l.filterMap f) ↔ ∃ q ∈ l, ∃ c, f q = some c ∧ pathEq c x := by
  constructor
  · rintro ⟨y, hy, he⟩
    obtain ⟨a, ha, hfa⟩ := List.mem_filterMap.mp hy
    exact ⟨a, ha, y, hfa, he⟩
  · rintro ⟨q, hq, c, hfc, he⟩
    exact ⟨c, List.mem_filterMap.mpr ⟨q, hq, hfc⟩, he⟩

/-! ### Duplicate analysis and deduplication lemmas -/

theorem dedupGo_sublist (res : String → Option String) (l : List String) :
    ∀ seen resolved, dedupGo res seen resolved l <+ l := by
  induction l with
  | nil => intro seen resolved; simp [dedupGo]
  | cons p rest ih =>
    intro seen resolved
    simp only [dedupGo]
    split
    · exact (ih (p :: seen) (resolve res p :: resolved)).cons₂ p
    · exact (ih seen resolved).cons p

theorem mem_dedupGo_not_seen (res : String → Option String) (l : List String) :
    ∀ seen resolved p, p ∈ dedupGo res seen resolved l → ¬ pathMem p seen := by
  induction l with
  | nil => intro seen resolved p hp; simp [dedupGo] at hp
  | cons q rest ih =>
    intro seen resolved p hp
    simp only [dedupGo] at hp
    split at hp
    · rcases List.mem_cons.mp hp with hp | hp
      · subst hp
        next hcond => exact hcond.1
      · intro hc
        exact ih _ _ p hp (pathMem_mono hc)
    · exact ih _ _ p hp

theorem mem_dedupGo_not_resolved (res : String → Option String)
    (l : List String) :
    ∀ seen resolved p, p ∈ dedupGo res seen resolved l →
      ¬ pathMem (resolve res p) resolved := by
  induction l with
  | nil => intro seen resolved p hp; simp [dedupGo] at hp
  | cons q rest ih =>
    intro seen resolved p hp
    simp only [dedupGo] at hp
    split at hp
    · rcases List.mem_cons.mp hp with hp | hp
      · subst hp
        next hcond => exact hcond.2
      · intro hc
        exact ih _ _ p hp (pathMem_mono hc)
    · exact ih _ _ p hp

theorem dedupGo_pairwise_lit (res : String → Option String) (l : List String) :
    ∀ seen resolved,
      (dedupGo res seen resolved l).Pairwise (fun a b => ¬ pathEq a b) := by
  induction l with
  | nil => intro seen resolved; simp [dedupGo]
  | cons p rest ih =>
    intro seen resolved
    simp only [dedupGo]
    split
    · refine List.pairwise_cons.mpr ⟨?_, ih _ _⟩
      intro b hb he
      exact mem_dedupGo_not_seen res rest _ _ b hb
        ⟨p, List.mem_cons_self p seen, he⟩
    · exact ih seen resolved

theorem dedupGo_pairwise_res (res : String → Option String) (l : List String) :
    ∀ seen resolved,
      (dedupGo res seen resolved l).Pairwise
        (fun a b => ¬ pathEq (resolve res a) (resolve res b)) := by
  induction l with
  | nil => intro seen resolved; simp [dedupGo]
  | cons p rest ih =>
    intro seen resolved
    simp only [dedupGo]
    split
    · refine List.pairwise_cons.mpr ⟨?_, ih _ _⟩
      intro b hb he
      exact mem_dedupGo_not_resolved res rest _ _ b hb
        ⟨resolve res p, List.mem_cons_self _ resolved, he⟩
    · exact ih seen resolved

theorem dedupGo_keeps_first (res : String → Option String) (l₁ : List String) :
    ∀ (seen resolved : List String) (p : String) (l₂ : List String),
      ¬ pathMem p seen → ¬ pathMem (resolve res p) resolved →
      (∀ q ∈ l₁, ¬ pathEq q p) →
      (∀ q ∈ l₁, ¬ pathEq (resolve res q) (resolve res p)) →
      p ∈ dedupGo res seen resolved (l₁ ++ p :: l₂) := by
  induction l₁ with
  | nil =>
    intro seen resolved p l₂ hs hr _ _
    simp only [List.nil_append, dedupGo, if_pos (And.intro hs hr)]
    exact List.mem_cons_self p _
  | cons q l₁ ih =>
    intro seen resolved p l₂ hs hr hlit hres
    have hq : ¬ pathEq q p := hlit q (List.mem_cons_self q l₁)
    have hqr : ¬ pathEq (resolve res q) (resolve res p) :=
      hres q (List.mem_cons_self q l₁)
    have hlit2 : ∀ x ∈ l₁, ¬ pathEq x p :=
      fun x hx => hlit x (List.mem_cons_of_mem q hx)
    have hres2 : ∀ x ∈ l₁, ¬ pathEq (resolve res x) (resolve res p) :=
      fun x hx => hres x (List.mem_cons_of_mem q hx)
    simp only [List.cons_append, dedupGo]
    split
    · refine List.mem_cons_of_mem q (ih _ _ p l₂ ?_ ?_ hlit2 hres2)
      · intro hc
        rcases pathMem_cons.mp hc with hc | hc
        · exact hq hc
        · exact hs hc
      · intro hc
        rcases pathMem_cons.mp hc with hc | hc
        · exact hqr hc
        · exact hr hc
    · exact ih _ _ p l₂ hs hr hlit2 hres2

theorem dedupGo_fixed (res : String → Option String) (l : List String) :
    ∀ seen resolved, (∀ p ∈ l, ¬ pathMem p seen) →
      (∀ p ∈ l, ¬ pathMem (resolve res p) resolved) →
      l.Pairwise (fun a b => ¬ pathEq a b) →
      l.Pairwise (fun a b => ¬ pathEq (resolve res a) (resolve res b)) →
      dedupGo res seen resolved l = l := by
  induction l with
  | nil => intro seen resolved _ _ _ _; rfl
  | cons q rest ih =>
    intro seen resolved hseen hres hplit hpres
    have hq : ¬ pathMem q seen := hseen q (List.mem_cons_self q rest)
    have hqr : ¬ pathMem (resolve res q) resolved :=
      hres q (List.mem_cons_self q rest)
    rw [List.pairwise_cons] at hplit hpres
    simp only [dedupGo, if_pos (And.intro hq hqr)]
    congr 1
    refine ih _ _ ?_ ?_ hplit.2 hpres.2
    · intro p hp hc
      rcases pathMem_cons.mp hc with hc | hc
      · exact hplit.1 p hp hc
      · exact hseen p (List.mem_cons_of_mem q hp) hc
    · intro p hp hc
      rcases pathMem_cons.mp hc with hc | hc
      · exact hpres.1 p hp hc
      · exact hres p (List.mem_cons_of_mem q hp) hc

theorem findDuplicatesResolvedGo_dedupGo_length (res : String → Option String)
    (L : List String)
    (hL : ∀ p ∈ L, ∀ q ∈ L, pathEq p q → pathEq (resolve res p) (resolve res q)) :
    ∀ (rest seen resolved : List String),
      (∀ p ∈ rest, p ∈ L) → (∀ s ∈ seen, s ∈ L) →
      (∀ s ∈ seen, pathMem (resolve res s) resolved) →
      (findDuplicatesResolvedGo res resolved rest).length
        + (dedupGo res seen resolved rest).length = rest.length := by
  intro rest
  induction rest with
  | nil =>
    intro seen resolved _ _ _
    simp [findDuplicatesResolvedGo, dedupGo]
  | cons p rest ih =>
    intro seen resolved hrest hseen hinv
    have hpL : p ∈ L := hrest p (List.mem_cons_self p rest)
    have hrest2 : ∀ q ∈ rest, q ∈ L :=
      fun q hq => hrest q (List.mem_cons_of_mem p hq)
    by_cases hr : pathMem (resolve res p) resolved
    · have hskip : ¬(¬ pathMem p seen ∧ ¬ pathMem (resolve res p) resolved) :=
        fun hc => hc.2 hr
      simp only [findDuplicatesResolvedGo, dedupGo, if_pos hr, if_neg hskip,
        List.length_cons]
      have h1 := ih seen resolved hrest2 hseen hinv
      omega
    · have hp : ¬ pathMem p seen := by
        intro hc
        obtain ⟨s, hsmem, hse⟩ := hc
        have hre : pathEq (resolve res s) (resolve res p) :=
          hL s (hseen s hsmem) p hpL hse
        exact hr (pathMem_congr (hinv s hsmem) hre)
      simp only [findDuplicatesResolvedGo, dedupGo, if_neg hr,
        if_pos (And.intro hp hr), List.length_cons]
      have h1 := ih (p :: seen) (resolve res p :: resolved) hrest2 ?_ ?_
      · omega
      · intro s hs
        rcases List.mem_cons.mp hs with hs | hs
        · exact hs ▸ hpL
        · exact hseen s hs
      · intro s hs
        rcases List.mem_cons.mp hs with hs | hs
        · exact hs ▸ pathMem_of_mem (List.mem_cons_self _ resolved)
        · exact pathMem_mono (hinv s hs)

/-- **C1 counterexample.** The claim's "first occurrence of any literal or
resolved value is the one kept" fails: in `["/x/", "/x"]` with nothing
resolvable, `"/x"` differs byte-wise from the earlier kept entry both
literally and in fallback-resolved form, yet it is dropped — the `HashSet`
membership behind `dedup` compares `PathBuf`s, which are component-
normalized, so `/x/` and `/x` collide. -/
theorem dedup_drops_byte_distinct_first_occurrence :
    ("/x" : String) ≠ "/x/" ∧
    resolve resNone "/x" ≠ resolve resNone "/x/" ∧
    dedup resNone ["/x/", "/x"] = ["/x/"] := by decide

/-- **C1 amended.** `dedup` returns a subsequence of its input (stable
order, no insertions or modifications); no two output entries are equal as
paths (`PathBuf` component equality — in particular no two have equal
literal text) and no two have path-equal fallback-resolved forms; and an
entry preceded by no path-equal entry and by no entry with a path-equal
resolved form is kept, i.e. "first occurrence" holds with entries compared
as paths and with both the literal and the resolved form required fresh. -/
theorem dedup_subsequence_nodup_first_occurrence
    (res : String → Option String) (l : List String) :
    dedup res l <+ l ∧
    (dedup res l).Nodup ∧
    (dedup res l).Pairwise (fun a b => ¬ pathEq a b) ∧
    (dedup res l).Pairwise
      (fun a b => ¬ pathEq (resolve res a) (resolve res b)) ∧
    ∀ l₁ p l₂, l = l₁ ++ p :: l₂ →
      (∀ q ∈ l₁, ¬ pathEq q p) →
      (∀ q ∈ l₁, ¬ pathEq (resolve res q) (resolve res p)) →
      p ∈ dedup res l := by
  refine ⟨dedupGo_sublist res l [] [],
    (dedupGo_pairwise_lit res l [] []).imp ?_,
    dedupGo_pairwise_lit res l [] [],
    dedupGo_pairwise_res res l [] [], ?_⟩
  · intro a b h hab
    exact h (hab ▸ pathEq_refl a)
  · intro l₁ p l₂ hsplit hlit hres
    rw [hsplit]
    exact dedupGo_keeps_first res l₁ [] [] p l₂ (pathMem_nil p)
      (pathMem_nil _) hlit hres

/-- **C6 counterexample.** The side-channel count can differ from the number
of entries `dedup` drops: with `/link` a symlink to a regular file (so
`canonicalize("/link") = Ok("/t")` but `canonicalize("/link/")` fails), on
`["/link", "/link/"]` `find_duplicates_resolved` reports nothing (`/t` and
the fallback `/link/` are different paths) while `dedup` drops `"/link/"`
through its literal `PathBuf`-equality check. -/
theorem resolved_duplicates_count_mismatch :
    find_duplicates_resolved resLink ["/link", "/link/"] = [] ∧
    dedup resLink ["/link", "/link/"] = ["/link"] := by decide

/-- **C6 amended.** When resolution respects path equality on the list's
entries (path-equal entries get path-equal fallback resolutions — in
particular whenever no two distinct-byte entries are path-equal), the
side-channel count, the length of `find_duplicates_resolved`, equals the
number of entries `dedup` drops: the two lengths sum to the input length. -/
theorem resolved_duplicates_length_spec (res : String → Option String)
    (l : List String)
    (hres : ∀ p ∈ l, ∀ q ∈ l, pathEq p q →
      pathEq (resolve res p) (resolve res q)) :
    (find_duplicates_resolved res l).length + (dedup res l).length
      = l.length := by
  exact findDuplicatesResolvedGo_dedupGo_length res l hres l [] []
    (fun p hp => hp) (fun s hs => absurd hs (List.not_mem_nil s))
    (fun s hs => absurd hs (List.not_mem_nil s))

/-- Witness for `resolved_duplicates_length_spec` at a concrete input. -/
theorem resolved_duplicates_length_witness :
    (find_duplicates_resolved resNone ["/a", "/a/", "/b"]).length
        + (dedup resNone ["/a", "/a/", "/b"]).length
      = (["/a", "/a/", "/b"] : List String).length :=
  resolved_duplicates_length_spec resNone ["/a", "/a/", "/b"] (by decide)

/-- **C7.** `dedup` is idempotent (resolution being one fixed function `res`
throughout): its output is pairwise path-distinct both literally and in
resolved form — the very equality its `HashSet`s use — so a second pass
keeps every entry. -/
theorem dedup_idempotent (res : String → Option String) (l : List String) :
    dedup res (dedup res l) = dedup res l :=
  dedupGo_fixed res (dedupGo res [] [] l) [] []
    (fun p _ => pathMem_nil p) (fun q _ => pathMem_nil (resolve res q))
    (dedupGo_pairwise_lit res l [] []) (dedupGo_pairwise_res res l [] [])

/-! ### Fallback resolution and addition validation -/

theorem findDuplicatesResolvedGo_congr (res₁ res₂ : String → Option String)
    (h : ∀ p, resolve res₁ p = resolve res₂ p) (l : List String) :
    ∀ seen, findDuplicatesResolvedGo res₁ seen l
      = findDuplicatesResolvedGo res₂ seen l := by
  induction l with
  | nil => intro seen; rfl
  | cons p rest ih =>
    intro seen
    simp only [findDuplicatesResolvedGo, h p]
    by_cases hc : pathMem (resolve res₂ p) seen
    · simp only [if_pos hc, ih seen]
    · simp only [if_neg hc, ih (resolve res₂ p :: seen)]

theorem dedupGo_congr (res₁ res₂ : String → Option String)
    (h : ∀ p, resolve res₁ p = resolve res₂ p) (l : List String) :
    ∀ seen resolved, dedupGo res₁ seen resolved l
      = dedupGo res₂ seen resolved l := by
  induction l with
  | nil => intro seen resolved; rfl
  | cons p rest ih =>
    intro seen resolved
    simp only [dedupGo, h p]
    by_cases hc : ¬ pathMem p seen ∧ ¬ pathMem (resolve res₂ p) resolved
    · simp only [if_pos hc, ih (p :: seen) (resolve res₂ p :: resolved)]
    · simp only [if_neg hc, ih seen resolved]

theorem resolve_totalized (res : String → Option String) (p : String) :
    resolve (fun q => some (resolve res q)) p = resolve res p := rfl

/-- **C3 counterexample.** The claim says the uniqueness check of
`validate_addition` lets an unresolvable existing entry's literal text stand
in for its canonical path in the resolved-form comparison.  With the list
`["/u"]` where `/u` is unresolvable and a candidate `/c` whose canonical
form is `/u`, the two fallback-resolved forms coincide, so the claimed
comparison would flag a duplicate; the code accepts, because
`ensure_unique_addition` collects only *successful* canonicalizations of
existing entries (`flat_map(|p| p.canonicalize())`). -/
theorem ensure_unique_addition_ignores_unresolvable :
    exRes "/u" = none ∧
    split "/u" = ["/u"] ∧
    resolve exRes "/c" = resolve exRes "/u" ∧
    ensure_unique_addition exRes "/u" "/c" = Except.ok () :=
  ⟨rfl, by decide, by decide, rfl⟩

/-- **C3 amended.** `find_duplicates_resolved` and `dedup` do treat an entry
that cannot be resolved as resolving to itself: totalizing the resolver by
its own fallback changes neither output.  In the uniqueness check of
`validate_addition` (`ensure_unique_addition`) the fallback applies to the
candidate only: the check succeeds iff the candidate is `PathBuf`-equal to
no existing entry and no representative of the existing entries'
`HashSet` *successfully* resolves to a path equal to the candidate's
fallback-resolved form — unresolvable existing entries are omitted from the
resolved comparison and participate only in the literal one. -/
theorem fallback_resolution_spec (res : String → Option String)
    (l : List String) (path_var addition : String) :
    find_duplicates_resolved res l
        = find_duplicates_resolved (fun p => some (resolve res p)) l ∧
    dedup res l = dedup (fun p => some (resolve res p)) l ∧
    (ensure_unique_addition res path_var addition = Except.ok () ↔
      ¬ (∃ q ∈ split path_var, pathEq q addition) ∧
        ¬ ∃ q ∈ split_hs path_var, ∃ c, res q = some c ∧
            pathEq c (resolve res addition)) := by
  refine ⟨findDuplicatesResolvedGo_congr res _
      (fun p => (resolve_totalized res p).symm) l [],
    dedupGo_congr res _ (fun p => (resolve_totalized res p).symm) l [] [], ?_⟩
  have hlit : pathMem addition (split_hs path_var) ↔
      ∃ q ∈ split path_var, pathEq q addition :=
    pathMem_split_hs path_var addition
  have hchk : pathMem (resolve res addition) ((split_hs path_var).filterMap res) ↔
      ∃ q ∈ split_hs path_var, ∃ c, res q = some c ∧
        pathEq c (resolve res addition) :=
    pathMem_filterMap
  simp only [ensure_unique_addition]
  by_cases h1 : pathMem addition (split_hs path_var)
  · simp [h1, hlit.mp h1]
  · by_cases h2 : pathMem (resolve res addition) ((split_hs path_var).filterMap res)
    · simp [h1, h2, hchk.mp h2]
    · simp [h1, h2, hlit.not.mp h1, hchk.not.mp h2]

/-- **C4 counterexample.** The claim says `validate_addition` fails with
`AlreadyPresent` whenever the candidate's resolved form equals some existing
entry's resolved form.  With the list `["/u"]` where `/u` exists but is
unresolvable and candidate `/c` resolving to the directory `/u`, the two
fallback-resolved forms are both `/u`, yet validation succeeds. -/
theorem validate_addition_accepts_resolved_alias :
    existsDir exEnv "/c" = true ∧
    resolve exEnv.res "/c" ∈ (split "/u").map (resolve exEnv.res) ∧
    validate_addition exEnv "/u" "/c" = Except.ok () :=
  ⟨rfl, by decide, rfl⟩

/-- **C4 amended.** `validate_addition` fails with `NotADirectory` exactly
when the candidate does not resolve to an existing directory (this check
runs first); otherwise it fails with the literal `AlreadyPresent` exactly
when the candidate is `PathBuf`-equal (component-normalized, not byte
equality) to some entry of the list; otherwise it fails with the resolved
`AlreadyPresent` exactly when some representative of the entries'
`HashSet` *successfully* resolves to a path equal to the candidate's
fallback-resolved form (not: when fallback-resolved forms merely coincide);
otherwise it succeeds. -/
theorem validate_addition_cases (env : FsEnv) (path_var addition : String) :
    (validate_addition env path_var addition
          = Except.error AddError.notADirectory
        ↔ existsDir env addition = false) ∧
    (validate_addition env path_var addition
          = Except.error AddError.alreadyPresentLiteral
        ↔ existsDir env addition = true ∧
          ∃ q ∈ split path_var, pathEq q addition) ∧
    (validate_addition env path_var addition
          = Except.error AddError.alreadyPresentResolved
        ↔ existsDir env addition = true ∧
          ¬ (∃ q ∈ split path_var, pathEq q addition) ∧
          ∃ q ∈ split_hs path_var, ∃ c, env.res q = some c ∧
            pathEq c (resolve env.res addition)) ∧
    (validate_addition env path_var addition = Except.ok ()
        ↔ existsDir env addition = true ∧
          ¬ (∃ q ∈ split path_var, pathEq q addition) ∧
          ¬ ∃ q ∈ split_hs path_var, ∃ c, env.res q = some c ∧
            pathEq c (resolve env.res addition)) := by
  have hlit : pathMem addition (split_hs path_var) ↔
      ∃ q ∈ split path_var, pathEq q addition :=
    pathMem_split_hs path_var addition
  have hchk : pathMem (resolve env.res addition)
        ((split_hs path_var).filterMap env.res) ↔
      ∃ q ∈ split_hs path_var, ∃ c, env.res q = some c ∧
        pathEq c (resolve env.res addition) :=
    pathMem_filterMap
  simp only [validate_addition, ensure_unique_addition]
  by_cases h0 : existsDir env addition
  · by_cases h1 : pathMem addition (split_hs path_var)
    · simp [h0, h1, hlit.mp h1]
    · by_cases h2 : pathMem (resolve env.res addition)
          ((split_hs path_var).filterMap env.res)
      · simp [h0, h1, h2, hchk.mp h2, hlit.not.mp h1]
      · simp [h0, h1, h2, hlit.not.mp h1, hchk.not.mp h2]
  · simp [h0, Bool.not_eq_true _ ▸ h0]

end Pathaid
